import Mathlib

/-!
Verification of the component dependency graph and edit-rebuild workflow of
`aladdin_project_tools/commands/components.py`.

The embedding mirrors the source functions:
* `getComponentConfig`   ↦ `_get_component_config`
* `getComponentGraph`    ↦ `_get_component_graph`
* `getDependentsFor`     ↦ `_get_dependents_for`
* `getPoetryLockFileMd5Digest` ↦ `_get_poetry_lock_file_md5_digest`
* `edit`                 ↦ the `edit` command body

External library calls (networkx `find_cycle`, `dag.descendants`,
`dag.topological_sort`) and collaborators (docker, aladdin build) are modelled
by their documented contracts; `md5.hexdigest` is an arbitrary function
parameter since only determinism matters to the spec.
-/

namespace AladdinTools

/-- A parsed `component.yaml` document, as far as the graph code inspects it.
`mapping deps` is a YAML mapping whose optional `dependencies` key holds a
list of component names (other keys are opaque to the graph builder);
`null` is what an empty file parses to; `other` is any other non-mapping
document (list, scalar, ...). -/
inductive YamlDoc where
  | mapping (deps : Option (List String))
  | null
  | other
deriving DecidableEq

/-- Whether a document is a YAML mapping (a Python `dict`), i.e. whether
`.get` is available on it. -/
def isMapping : YamlDoc → Bool
  | .mapping _ => true
  | _ => false

/-- The dependency list the graph builder reads off a document:
`component_yaml.get("dependencies", [])` for mappings, `[]` otherwise
(the non-mapping case never reaches this read in the source — it raises). -/
def docDepsList : YamlDoc → List String
  | .mapping deps => deps.getD []
  | _ => []

/-- The errors the graph/build code can raise.  `configNotMapping` is the
`AttributeError` from calling `.get` on a non-dict parse result;
`unknownDependency m` is the `KeyError` from `Component[dependency]` — note
the Python exception carries only the missing name `m`, not the declaring
component; `cyclicDependency` is the `RuntimeError` raised when
`find_cycle` finds a cycle; `topologicalUnfeasible` models networkx's
`NetworkXUnfeasible` from `topological_sort` on a cyclic graph. -/
inductive CompErr where
  | configNotMapping
  | unknownDependency (missing : String)
  | cyclicDependency
  | topologicalUnfeasible
deriving DecidableEq

/-- The filesystem view of the per-component config files: `none` when
`components/<c>/component.yaml` does not exist, otherwise the parsed doc. -/
abbrev ConfigStore : Type := String → Option YamlDoc

/-- `_get_component_config`: read the component's `component.yaml`; a
`FileNotFoundError` yields the empty dict `{}` (a mapping with no keys);
otherwise the parse result is returned as-is (including `None` for an
empty file). -/
def getComponentConfig (fs : ConfigStore) (component : String) : YamlDoc :=
  match fs component with
  | none => .mapping none
  | some doc => doc

/-- `component_yaml.get("dependencies", [])`: succeeds with the declared
list on a mapping, raises `AttributeError` (here `configNotMapping`) on any
non-mapping parse result such as `None`. -/
def getDependencies : YamlDoc → Except CompErr (List String)
  | .mapping deps => .ok (deps.getD [])
  | _ => .error .configNotMapping

/-- The edge generator for one component:
`(Component[dependency], component) for dependency in deps` — each declared
name is looked up in the registry (`Component[...]`), raising `KeyError`
(here `unknownDependency`) at the first unregistered name, and otherwise
producing the edge dependency → component. -/
def edgesFor (registry : List String) (component : String) :
    List String → Except CompErr (List (String × String))
  | [] => .ok []
  | d :: rest =>
    if d ∈ registry then
      (edgesFor registry component rest).map (fun es => (d, component) :: es)
    else
      .error (.unknownDependency d)

/-- The edge-collection loop of `_get_component_graph`: for each component
in registry order, load its config and add its declared edges. -/
def buildEdges (registry : List String) (fs : ConfigStore) :
    List String → Except CompErr (List (String × String))
  | [] => .ok []
  | c :: rest =>
    match getDependencies (getComponentConfig fs c) with
    | .error e => .error e
    | .ok deps =>
      match edgesFor registry c deps with
      | .error e => .error e
      | .ok es =>
        match buildEdges registry fs rest with
        | .error e => .error e
        | .ok rest' => .ok (es ++ rest')

/-- `v` has no incoming edge from `remaining`: no edge `e ∈ E` ends at `v`
with its source still in `remaining`. -/
def noIncoming (E : List (String × String)) (remaining : List String)
    (v : String) : Bool :=
  E.all (fun e => !(decide (e.2 = v) && decide (e.1 ∈ remaining)))

/-- Kahn-style node elimination over the subgraph of `E` induced by
`remaining`: repeatedly remove a node with no incoming induced edge.
Succeeds with a topological order of `remaining` exactly when that induced
subgraph is acyclic.  This is the documented contract of networkx's
`topological_sort` (which raises `NetworkXUnfeasible` on a cycle); it is
also used below, through `Option.isNone`, as the contract of
`find_cycle` (which raises `NetworkXNoCycle` exactly when no directed
cycle exists). -/
def kahn (E : List (String × String)) : Nat → List String → Option (List String)
  | 0, remaining => if remaining.isEmpty then some [] else none
  | fuel + 1, remaining =>
    if remaining.isEmpty then some []
    else
      match remaining.find? (noIncoming E remaining) with
      | none => none
      | some v => (kahn E fuel (remaining.erase v)).map (fun out => v :: out)

/-- The dependency graph: nodes are the registered components, an edge
`(a, b)` means "b depends on a" (a must be built before b). -/
structure Graph where
  nodes : List String
  edges : List (String × String)
deriving DecidableEq

/-- `_get_component_graph`: one node per registered component; for each
component, edges dependency → component from its config; then the cycle
check (`find_cycle`, modelled by `kahn` failing) — the `RuntimeError` is
raised if a cycle exists, otherwise the graph is returned. -/
def getComponentGraph (registry : List String) (fs : ConfigStore) :
    Except CompErr Graph :=
  match buildEdges registry fs registry with
  | .error e => .error e
  | .ok E =>
    match kahn E registry.length registry with
    | some _ => .ok { nodes := registry, edges := E }
    | none => .error .cyclicDependency

/-- One breadth step: the targets of edges whose source is already in
`acc`, keeping only genuinely new nodes (deduplicated — networkx works
with node sets). -/
def targetsFrom (E : List (String × String)) (acc : List String) : List String :=
  ((((E.filter (fun e => decide (e.1 ∈ acc))).map Prod.snd).filter
    (fun x => !decide (x ∈ acc)))).dedup

/-- Saturate `acc` under following edges forward. -/
def saturate (E : List (String × String)) : Nat → List String → List String
  | 0, acc => acc
  | fuel + 1, acc =>
    let next := targetsFrom E acc
    if next.isEmpty then acc else saturate E fuel (acc ++ next)

/-- `dag.descendants(G, v)`: all nodes reachable from `v` by following
edges forward, excluding `v` itself. -/
def descendantsOf (E : List (String × String)) (v : String) : List String :=
  (saturate E (E.length + 1) [v]).filter (fun x => !decide (x = v))

/-- `_get_dependents_for`: build the graph fresh, take the descendants of
`component`, and topologically sort the induced subgraph on them.  The CLI
layer (`typer` with the `Component` enum) guarantees `component` is
registered before this is reached, so the networkx error on a node absent
from the graph is not modelled. -/
def getDependentsFor (registry : List String) (fs : ConfigStore)
    (component : String) : Except CompErr (List String) :=
  match getComponentGraph registry fs with
  | .error e => .error e
  | .ok g =>
    let dependents := descendantsOf g.edges component
    match kahn g.edges dependents.length dependents with
    | some order => .ok order
    | none => .error .topologicalUnfeasible

/-- `_get_poetry_lock_file_md5_digest`: if the lock file exists, the md5
hex digest of its byte content; otherwise the function falls through and
returns `None`.  The digest function itself is a parameter (only its
determinism matters). -/
def getPoetryLockFileMd5Digest (md5hex : List Nat → String)
    (lock : Option (List Nat)) : Option String :=
  match lock with
  | some content => some (md5hex content)
  | none => none

/-- Everything the `edit` command observes from its environment: whether
the editor image exists, the lock-file content before and after the
session, whether the interactive session succeeded, the config filesystem
seen when the graph is rebuilt after the session, and the outcome of each
`aladdin build` invocation. -/
structure World where
  editorImagePresent : Bool
  lockBefore : Option (List Nat)
  sessionOk : Bool
  lockAfter : Option (List Nat)
  registry : List String
  fs : ConfigStore
  buildOk : List String → Bool

/-- Observable events of one `edit` run, in order. -/
inductive Event where
  | dockerInspect
  | fingerprintComputed (digest : Option String)
  | sessionRun (ok : Bool)
  | graphBuilt
  | aladdinBuild (targets : List String)
deriving DecidableEq

/-- Outcome of one `edit` run. -/
inductive EditResult where
  | abortedNoEditorImage
  | abortedSessionFailed
  | exitedNoRebuild
  | graphError (e : CompErr)
  | abortedBuildFailed
  | abortedDependentsBuildFailed
  | completedRebuild
deriving DecidableEq

/-- The `edit` command body: check the editor image, hash the lock file,
run the interactive session (abort on failure), re-hash and compare (exit
successfully if unchanged), otherwise compute the dependents (building the
graph fresh), rebuild the component alone (abort on failure), then — if it
has dependents — rebuild all of them in the computed topological order.
The second component of the result is the ordered trace of observable
events. -/
def edit (md5hex : List Nat → String) (w : World) (component : String) :
    EditResult × List Event :=
  if !w.editorImagePresent then
    (.abortedNoEditorImage, [.dockerInspect])
  else
    let before := getPoetryLockFileMd5Digest md5hex w.lockBefore
    if !w.sessionOk then
      (.abortedSessionFailed,
        [.dockerInspect, .fingerprintComputed before, .sessionRun false])
    else
      let after := getPoetryLockFileMd5Digest md5hex w.lockAfter
      let pre : List Event :=
        [.dockerInspect, .fingerprintComputed before, .sessionRun true,
         .fingerprintComputed after]
      if before = after then
        (.exitedNoRebuild, pre)
      else
        match getDependentsFor w.registry w.fs component with
        | .error e => (.graphError e, pre ++ [.graphBuilt])
        | .ok dependents =>
          let pre2 := pre ++ [.graphBuilt]
          if !(w.buildOk [component]) then
            (.abortedBuildFailed, pre2 ++ [.aladdinBuild [component]])
          else if !dependents.isEmpty then
            if !(w.buildOk dependents) then
              (.abortedDependentsBuildFailed,
                pre2 ++ [.aladdinBuild [component], .aladdinBuild dependents])
            else
              (.completedRebuild,
                pre2 ++ [.aladdinBuild [component], .aladdinBuild dependents])
          else
            (.completedRebuild, pre2 ++ [.aladdinBuild [component]])

/-- The build invocations of a trace, in order, with their target lists. -/
def buildsOf (t : List Event) : List (List String) :=
  t.filterMap (fun e => match e with | .aladdinBuild ts => some ts | _ => none)

/-- The number of fingerprint computations in a trace. -/
def fingerprintCount (t : List Event) : Nat :=
  t.countP (fun e => match e with | .fingerprintComputed _ => true | _ => false)

/-- The edge relation declared by the configs: `declEdge registry fs a b`
holds when `b` is registered and `b`'s config lists `a` as a dependency. -/
abbrev declEdge (registry : List String) (fs : ConfigStore)
    (a b : String) : Prop :=
  b ∈ registry ∧ a ∈ docDepsList (getComponentConfig fs b)

/-- The edge relation of an explicit edge list. -/
abbrev edgeRel (E : List (String × String)) (a b : String) : Prop :=
  (a, b) ∈ E

/-- Every config parses to a mapping and every declared dependency is
registered (the precondition under which edge collection succeeds). -/
def wellFormedB (registry : List String) (fs : ConfigStore) : Bool :=
  registry.all (fun c =>
    isMapping (getComponentConfig fs c) &&
      (docDepsList (getComponentConfig fs c)).all (fun d => decide (d ∈ registry)))

/-! ### Properties of the Kahn elimination -/

/-- A successful elimination outputs a permutation of the input nodes. -/
theorem kahn_perm {E : List (String × String)} :
    ∀ {fuel : Nat} {S out : List String}, kahn E fuel S = some out → out.Perm S := by
  intro fuel
  induction fuel with
  | zero =>
    intro S out h
    cases S with
    | nil => simp [kahn] at h; simp [h.symm]
    | cons s S' => simp [kahn] at h
  | succ n ih =>
    intro S out h
    cases S with
    | nil => simp [kahn] at h; simp [h.symm]
    | cons s S' =>
      simp only [kahn, List.isEmpty_cons, if_neg] at h
      simp only [Bool.false_eq_true, if_false] at h
      cases hfind : (s :: S').find? (noIncoming E (s :: S')) with
      | none => rw [hfind] at h; simp at h
      | some v =>
        rw [hfind] at h
        obtain ⟨out', hk, rfl⟩ := Option.map_eq_some'.mp h
        have hvS := List.mem_of_find?_eq_some hfind
        exact ((ih hk).cons v).trans (List.perm_cons_erase hvS).symm

/-- In a successful elimination, the source of any edge whose endpoints are
both among the input nodes appears strictly before its target. -/
theorem kahn_indexOf_lt {E : List (String × String)} {a b : String} :
    ∀ {fuel : Nat} {S out : List String}, kahn E fuel S = some out →
      (a, b) ∈ E → a ∈ S → b ∈ S → out.indexOf a < out.indexOf b := by
  intro fuel
  induction fuel with
  | zero =>
    intro S out h _ ha _
    cases S with
    | nil => simp at ha
    | cons s S' => simp [kahn] at h
  | succ n ih =>
    intro S out h hE ha hb
    cases S with
    | nil => simp at ha
    | cons s S' =>
      simp only [kahn, List.isEmpty_cons, Bool.false_eq_true, if_false] at h
      cases hfind : (s :: S').find? (noIncoming E (s :: S')) with
      | none => rw [hfind] at h; simp at h
      | some v =>
        rw [hfind] at h
        obtain ⟨out', hk, rfl⟩ := Option.map_eq_some'.mp h
        have hvp : noIncoming E (s :: S') v = true := List.find?_some hfind
        by_cases hbv : b = v
        · exfalso
          subst hbv
          have hall := List.all_eq_true.mp hvp (a, b) hE
          simp [ha] at hall
        · by_cases hav : a = v
          · subst hav
            rw [List.indexOf_cons_self]
            rw [List.indexOf_cons_ne out' (fun hh => hbv hh.symm)]
            exact Nat.succ_pos _
          · have ha' : a ∈ (s :: S').erase v := (List.mem_erase_of_ne hav).mpr ha
            have hb' : b ∈ (s :: S').erase v := (List.mem_erase_of_ne hbv).mpr hb
            have hlt := ih hk hE ha' hb'
            rw [List.indexOf_cons_ne out' (fun hh => hav hh.symm)]
            rw [List.indexOf_cons_ne out' (fun hh => hbv hh.symm)]
            exact Nat.succ_lt_succ hlt

/-- Reachability (in one or more steps) also implies strict precedence in a
successful elimination, provided every edge stays inside the node set. -/
theorem kahn_transGen_indexOf_lt {E : List (String × String)}
    {S out : List String} {fuel : Nat}
    (hE : ∀ e ∈ E, e.1 ∈ S ∧ e.2 ∈ S) (h : kahn E fuel S = some out)
    {a b : String} (hab : Relation.TransGen (edgeRel E) a b) :
    out.indexOf a < out.indexOf b := by
  induction hab with
  | single he => exact kahn_indexOf_lt h he (hE _ he).1 (hE _ he).2
  | tail _ he ih => exact ih.trans (kahn_indexOf_lt h he (hE _ he).1 (hE _ he).2)

/-- A successful elimination certifies acyclicity of the edge set (when the
edges stay inside the node set). -/
theorem acyclic_of_kahn_some {E : List (String × String)}
    {S out : List String} {fuel : Nat}
    (hE : ∀ e ∈ E, e.1 ∈ S ∧ e.2 ∈ S) (h : kahn E fuel S = some out) :
    ∀ v, ¬ Relation.TransGen (edgeRel E) v v := by
  intro v hv
  exact Nat.lt_irrefl _ (kahn_transGen_indexOf_lt hE h hv)

/-- A filter that misses some member of the list is strictly shorter than
the list. -/
theorem length_filter_lt_of_mem_not {α : Type} {p : α → Bool} {l : List α}
    {y : α} (hy : y ∈ l) (hpy : p y = false) :
    (l.filter p).length < l.length := by
  rcases Nat.lt_or_ge (l.filter p).length l.length with h | h
  · exact h
  · exfalso
    have hsub := List.filter_sublist (p := p) l
    have heq := hsub.eq_of_length (Nat.le_antisymm hsub.length_le h)
    have hyf : y ∈ l.filter p := by rw [heq]; exact hy
    have := (List.mem_filter.mp hyf).2
    rw [hpy] at this
    exact Bool.false_ne_true this

/-- In an acyclic edge set, every nonempty finite node list contains a node
with no incoming edge from the list (a "source" of the induced subgraph). -/
theorem exists_source {E : List (String × String)}
    (hacyc : ∀ v, ¬ Relation.TransGen (edgeRel E) v v) :
    ∀ (n : Nat) (S : List String), S.length ≤ n → S ≠ [] →
      ∃ v ∈ S, ∀ e ∈ E, e.2 = v → e.1 ∉ S := by
  intro n
  induction n with
  | zero =>
    intro S hlen hne
    cases S with
    | nil => exact absurd rfl hne
    | cons x S' => simp at hlen
  | succ m ih =>
    intro S hlen hne
    classical
    cases S with
    | nil => exact absurd rfl hne
    | cons x S' =>
      by_cases hsrc : ∀ e ∈ E, e.2 = x → e.1 ∉ x :: S'
      · exact ⟨x, List.mem_cons_self _ _, hsrc⟩
      · push_neg at hsrc
        obtain ⟨e, heE, he2, he1⟩ := hsrc
        have hex : Relation.TransGen (edgeRel E) e.1 x :=
          Relation.TransGen.single (by rw [← he2]; exact heE)
        have hancedge : ∀ u, u ∈ (x :: S').filter
            (fun u => decide (Relation.TransGen (edgeRel E) u x)) ↔
            u ∈ x :: S' ∧ Relation.TransGen (edgeRel E) u x := by
          intro u
          rw [List.mem_filter]
          simp only [decide_eq_true_eq]
        have hanc_ne : (x :: S').filter
            (fun u => decide (Relation.TransGen (edgeRel E) u x)) ≠ [] := by
          intro h0
          have : e.1 ∈ ([] : List String) := by
            rw [← h0]; exact (hancedge e.1).mpr ⟨he1, hex⟩
          simp at this
        have hanc_len : ((x :: S').filter
            (fun u => decide (Relation.TransGen (edgeRel E) u x))).length ≤ m := by
          have hxf : (decide (Relation.TransGen (edgeRel E) x x)) = false := by
            simp only [decide_eq_false_iff_not]
            exact hacyc x
          have := length_filter_lt_of_mem_not
            (p := fun u => decide (Relation.TransGen (edgeRel E) u x))
            (List.mem_cons_self x S') hxf
          omega
        obtain ⟨v, hv_mem, hv_src⟩ := ih _ hanc_len hanc_ne
        have hvSS : v ∈ x :: S' := ((hancedge v).mp hv_mem).1
        have hvx : Relation.TransGen (edgeRel E) v x := ((hancedge v).mp hv_mem).2
        refine ⟨v, hvSS, ?_⟩
        intro e' he'E he'2 he'1
        have he'vx : Relation.TransGen (edgeRel E) e'.1 x :=
          Relation.TransGen.trans
            (Relation.TransGen.single (by rw [← he'2]; exact he'E)) hvx
        exact hv_src e' he'E he'2 ((hancedge e'.1).mpr ⟨he'1, he'vx⟩)

/-- Under acyclicity, the Kahn elimination succeeds when given its node
count as fuel (the call pattern used by the source's wrappers). -/
theorem kahn_total {E : List (String × String)}
    (hacyc : ∀ v, ¬ Relation.TransGen (edgeRel E) v v) :
    ∀ (n : Nat) (S : List String), S.length ≤ n →
      ∃ out, kahn E S.length S = some out := by
  intro n
  induction n with
  | zero =>
    intro S hlen
    cases S with
    | nil => exact ⟨[], rfl⟩
    | cons x S' => simp at hlen
  | succ m ih =>
    intro S hlen
    cases hS : S with
    | nil => exact ⟨[], rfl⟩
    | cons x S' =>
      subst hS
      obtain ⟨v, hvS, hv_src⟩ :=
        exists_source hacyc (m + 1) (x :: S') hlen (by simp)
      have hp : noIncoming E (x :: S') v = true := by
        rw [noIncoming, List.all_eq_true]
        intro e heE
        simp only [Bool.not_eq_true', Bool.and_eq_false_iff, decide_eq_false_iff_not]
        by_cases h2 : e.2 = v
        · exact Or.inr (hv_src e heE h2)
        · exact Or.inl h2
      have hfind : ((x :: S').find? (noIncoming E (x :: S'))).isSome = true :=
        List.find?_isSome.mpr ⟨v, hvS, hp⟩
      obtain ⟨w, hw⟩ := Option.isSome_iff_exists.mp hfind
      have hwS : w ∈ x :: S' := List.mem_of_find?_eq_some hw
      have herase : ((x :: S').erase w).length = S'.length :=
        by rw [List.length_erase_of_mem hwS]; simp
      have hle : ((x :: S').erase w).length ≤ m := by
        rw [herase]
        simpa using Nat.le_of_succ_le_succ hlen
      obtain ⟨out', hout'⟩ := ih ((x :: S').erase w) hle
      refine ⟨w :: out', ?_⟩
      show kahn E (S'.length + 1) (x :: S') = some (w :: out')
      simp only [kahn, List.isEmpty_cons, Bool.false_eq_true, if_false, hw]
      rw [← herase, hout']
      rfl

/-! ### Properties of the descendant saturation -/

/-- Membership in one breadth step. -/
theorem mem_targetsFrom {E : List (String × String)} {acc : List String}
    {y : String} :
    y ∈ targetsFrom E acc ↔ (∃ e ∈ E, e.1 ∈ acc ∧ e.2 = y) ∧ y ∉ acc := by
  rw [targetsFrom, List.mem_dedup, List.mem_filter, List.mem_map]
  constructor
  · rintro ⟨⟨e, hef, rfl⟩, hnot⟩
    have := List.mem_filter.mp hef
    refine ⟨⟨e, this.1, by simpa using this.2, rfl⟩, by simpa using hnot⟩
  · rintro ⟨⟨e, heE, h1, rfl⟩, hnot⟩
    exact ⟨⟨e, List.mem_filter.mpr ⟨heE, by simpa using h1⟩, rfl⟩, by simpa using hnot⟩

/-- Saturation only extends the accumulator. -/
theorem subset_saturate {E : List (String × String)} :
    ∀ (fuel : Nat) (acc : List String), acc ⊆ saturate E fuel acc := by
  intro fuel
  induction fuel with
  | zero => intro acc; exact fun _ h => h
  | succ n ih =>
    intro acc
    rw [saturate]
    by_cases hnext : (targetsFrom E acc).isEmpty
    · simp [hnext]
    · simp only [hnext, Bool.false_eq_true, if_false]
      exact fun x hx => ih _ (List.mem_append_left _ hx)

/-- Everything saturation adds is reachable from the accumulator. -/
theorem saturate_sound {E : List (String × String)} :
    ∀ (fuel : Nat) (acc : List String) (x : String), x ∈ saturate E fuel acc →
      x ∈ acc ∨ ∃ a ∈ acc, Relation.TransGen (edgeRel E) a x := by
  intro fuel
  induction fuel with
  | zero => intro acc x hx; exact Or.inl hx
  | succ n ih =>
    intro acc x hx
    rw [saturate] at hx
    by_cases hnext : (targetsFrom E acc).isEmpty
    · simp only [hnext, if_true] at hx
      exact Or.inl hx
    · simp only [hnext, Bool.false_eq_true, if_false] at hx
      have step : ∀ y ∈ targetsFrom E acc,
          ∃ a ∈ acc, Relation.TransGen (edgeRel E) a y := by
        intro y hy
        obtain ⟨⟨e, heE, h1, rfl⟩, _⟩ := mem_targetsFrom.mp hy
        exact ⟨e.1, h1, Relation.TransGen.single heE⟩
      rcases ih _ x hx with hmem | ⟨a, ha, hax⟩
      · rcases List.mem_append.mp hmem with h | h
        · exact Or.inl h
        · exact Or.inr (step x h)
      · rcases List.mem_append.mp ha with h | h
        · exact Or.inr ⟨a, h, hax⟩
        · obtain ⟨a', ha', ha'a⟩ := step a h
          exact Or.inr ⟨a', ha', ha'a.trans hax⟩

/-- A filter along a pointwise-stronger predicate that loses a witness is
strictly shorter. -/
theorem length_filter_lt_filter {α : Type} {p q : α → Bool}
    (himp : ∀ a, q a = true → p a = true) :
    ∀ {l : List α} {y : α}, y ∈ l → p y = true → q y = false →
      (l.filter q).length < (l.filter p).length := by
  intro l
  induction l with
  | nil => intro y hy; simp at hy
  | cons a l' ih =>
    intro y hy hpy hqy
    by_cases hqa : q a = true
    · have hpa := himp a hqa
      have hyl' : y ∈ l' := by
        rcases List.mem_cons.mp hy with rfl | h
        · rw [hqa] at hqy; exact absurd hqy (by simp)
        · exact h
      simp only [List.filter_cons, hqa, hpa, if_true, List.length_cons]
      exact Nat.succ_lt_succ (ih hyl' hpy hqy)
    · have hqa' : q a = false := Bool.eq_false_iff.mpr hqa
      have hweak : (l'.filter q).length ≤ (l'.filter p).length :=
        (List.monotone_filter_right l' himp).length_le
      by_cases hpa : p a = true
      · simp only [List.filter_cons, hqa', hpa, Bool.false_eq_true, if_false,
          if_true, List.length_cons]
        exact Nat.lt_succ_of_le hweak
      · have hpa' : p a = false := Bool.eq_false_iff.mpr hpa
        have hyl' : y ∈ l' := by
          rcases List.mem_cons.mp hy with rfl | h
          · rw [hpa'] at hpy; exact absurd hpy (by simp)
          · exact h
        simp only [List.filter_cons, hqa', hpa', Bool.false_eq_true, if_false]
        exact ih hyl' hpy hqy

/-- The possible new nodes a saturation step can ever add. -/
def targetPool (E : List (String × String)) : List String :=
  (E.map Prod.snd).dedup

/-- How many pool nodes are still missing from the accumulator. -/
def missing (E : List (String × String)) (acc : List String) : Nat :=
  ((targetPool E).filter (fun x => !decide (x ∈ acc))).length

/-- With fuel at least `missing E acc`, saturation reaches a state with no
further step possible. -/
theorem targetsFrom_saturate_eq_nil {E : List (String × String)} :
    ∀ (fuel : Nat) (acc : List String), missing E acc ≤ fuel →
      targetsFrom E (saturate E fuel acc) = [] := by
  intro fuel
  induction fuel with
  | zero =>
    intro acc hm
    have hm0 : missing E acc = 0 := Nat.le_zero.mp hm
    have hall : ∀ x ∈ targetPool E, x ∈ acc := by
      intro x hx
      by_contra hnot
      have : x ∈ (targetPool E).filter (fun x => !decide (x ∈ acc)) :=
        List.mem_filter.mpr ⟨hx, by simpa using hnot⟩
      rw [List.length_eq_zero.mp hm0] at this
      simp at this
    rw [saturate]
    rcases h0 : targetsFrom E acc with _ | ⟨y, t⟩
    · rfl
    · exfalso
      have hy : y ∈ targetsFrom E acc := by rw [h0]; exact List.mem_cons_self _ _
      obtain ⟨⟨e, heE, _, rfl⟩, hnot⟩ := mem_targetsFrom.mp hy
      exact hnot (hall e.2 (List.mem_dedup.mpr (List.mem_map_of_mem Prod.snd heE)))
  | succ n ih =>
    intro acc hm
    rw [saturate]
    by_cases hnext : (targetsFrom E acc).isEmpty
    · simp only [hnext, if_true]
      exact List.isEmpty_iff.mp hnext
    · simp only [hnext, Bool.false_eq_true, if_false]
      have hne : targetsFrom E acc ≠ [] := fun h => by simp [h] at hnext
      obtain ⟨y, hy⟩ := List.exists_mem_of_ne_nil _ hne
      obtain ⟨⟨e, heE, _, rfl⟩, hnot⟩ := mem_targetsFrom.mp hy
      have hypool : e.2 ∈ targetPool E :=
        List.mem_dedup.mpr (List.mem_map_of_mem Prod.snd heE)
      have hstrict : missing E (acc ++ targetsFrom E acc) < missing E acc := by
        apply length_filter_lt_filter
        · intro a ha
          simp only [Bool.not_eq_true', decide_eq_false_iff_not] at ha ⊢
          intro hmem
          exact ha (List.mem_append_left _ hmem)
        · exact hypool
        · simpa using hnot
        · simp only [Bool.not_eq_false', decide_eq_true_eq]
          exact List.mem_append_right _ hy
      exact ih _ (by omega)

/-- A step-free state is closed under following edges forward. -/
theorem closed_of_targetsFrom_eq_nil {E : List (String × String)}
    {R : List String} (h : targetsFrom E R = []) :
    ∀ a b, (a, b) ∈ E → a ∈ R → b ∈ R := by
  intro a b hab ha
  by_contra hb
  have : b ∈ targetsFrom E R := mem_targetsFrom.mpr ⟨⟨(a, b), hab, ha, rfl⟩, hb⟩
  rw [h] at this
  simp at this

/-- Everything reachable from `v` lands in the saturation from `[v]` with
the fuel used by `descendantsOf`. -/
theorem saturate_complete {E : List (String × String)} {v x : String}
    (hvx : Relation.TransGen (edgeRel E) v x) :
    x ∈ saturate E (E.length + 1) [v] := by
  have hfuel : missing E [v] ≤ E.length + 1 := by
    have h1 : missing E [v] ≤ (targetPool E).length := (List.filter_sublist _).length_le
    have h2 : (targetPool E).length ≤ (E.map Prod.snd).length :=
      (List.dedup_sublist _).length_le
    rw [List.length_map] at h2
    omega
  have hdone := targetsFrom_saturate_eq_nil (E.length + 1) [v] hfuel
  have hclosed := closed_of_targetsFrom_eq_nil hdone
  have hvR : v ∈ saturate E (E.length + 1) [v] :=
    subset_saturate _ _ (List.mem_singleton.mpr rfl)
  induction hvx with
  | single he => exact hclosed _ _ he hvR
  | tail _ he ih => exact hclosed _ _ he ih

/-- `descendantsOf` computes exactly reachability-in-one-or-more-steps,
for acyclic edge sets. -/
theorem mem_descendantsOf {E : List (String × String)}
    (hacyc : ∀ w, ¬ Relation.TransGen (edgeRel E) w w) (v x : String) :
    x ∈ descendantsOf E v ↔ Relation.TransGen (edgeRel E) v x := by
  rw [descendantsOf, List.mem_filter]
  constructor
  · rintro ⟨hsat, hne⟩
    rcases saturate_sound _ _ _ hsat with hmem | ⟨a, ha, hax⟩
    · exfalso
      simp only [List.mem_singleton] at hmem
      simp [hmem] at hne
    · rw [List.mem_singleton.mp ha] at hax
      exact hax
  · intro hvx
    refine ⟨saturate_complete hvx, ?_⟩
    simp only [Bool.not_eq_true', decide_eq_false_iff_not]
    intro hxv
    exact hacyc v (hxv ▸ hvx)

/-- Saturation preserves distinctness of the accumulator. -/
theorem saturate_nodup {E : List (String × String)} :
    ∀ (fuel : Nat) (acc : List String), acc.Nodup → (saturate E fuel acc).Nodup := by
  intro fuel
  induction fuel with
  | zero => intro acc h; exact h
  | succ n ih =>
    intro acc h
    rw [saturate]
    by_cases hnext : (targetsFrom E acc).isEmpty
    · simpa [hnext]
    · simp only [hnext, Bool.false_eq_true, if_false]
      refine ih _ (List.nodup_append.mpr ⟨h, ?_, ?_⟩)
      · exact List.nodup_dedup _
      · intro a ha hb
        exact (mem_targetsFrom.mp hb).2 ha

/-- The descendant list contains no duplicates. -/
theorem descendantsOf_nodup (E : List (String × String)) (v : String) :
    (descendantsOf E v).Nodup :=
  List.Nodup.filter _ (saturate_nodup _ _ (List.nodup_singleton v))

/-! ### Properties of graph construction -/

/-- A successful single-component edge collection yields exactly the
declared pairs, and certifies that every declared name is registered. -/
theorem edgesFor_ok {registry : List String} {c : String} :
    ∀ {deps : List String} {es : List (String × String)},
      edgesFor registry c deps = .ok es →
      (∀ a b, ((a, b) ∈ es ↔ b = c ∧ a ∈ deps)) ∧ ∀ d ∈ deps, d ∈ registry := by
  intro deps
  induction deps with
  | nil =>
    intro es h
    simp only [edgesFor, Except.ok.injEq] at h
    subst h
    exact ⟨by simp, by simp⟩
  | cons d rest ih =>
    intro es h
    rw [edgesFor] at h
    by_cases hd : d ∈ registry
    · rw [if_pos hd] at h
      cases hrest : edgesFor registry c rest with
      | error e => rw [hrest] at h; simp [Except.map] at h
      | ok es' =>
        rw [hrest] at h
        simp only [Except.map, Except.ok.injEq] at h
        subst h
        obtain ⟨hiff, hreg⟩ := ih hrest
        constructor
        · intro a b
          rw [List.mem_cons, hiff a b, Prod.mk.injEq]
          constructor
          · rintro (⟨rfl, rfl⟩ | ⟨rfl, hmem⟩)
            · exact ⟨rfl, List.mem_cons_self _ _⟩
            · exact ⟨rfl, List.mem_cons_of_mem _ hmem⟩
          · rintro ⟨rfl, hmem⟩
            rcases List.mem_cons.mp hmem with rfl | hmem'
            · exact Or.inl ⟨rfl, rfl⟩
            · exact Or.inr ⟨rfl, hmem'⟩
        · intro d' hd'
          rcases List.mem_cons.mp hd' with rfl | h'
          · exact hd
          · exact hreg d' h'
    · rw [if_neg hd] at h
      exact absurd h (by simp)

/-- If some declared name is unregistered, the edge collection raises
`KeyError` on the first such name. -/
theorem edgesFor_error {registry : List String} {c : String} :
    ∀ {deps : List String}, (∃ d ∈ deps, d ∉ registry) →
      ∃ m, edgesFor registry c deps = .error (.unknownDependency m) ∧
        m ∈ deps ∧ m ∉ registry := by
  intro deps
  induction deps with
  | nil => rintro ⟨d, hd, _⟩; simp at hd
  | cons d rest ih =>
    rintro ⟨d', hd', hd'reg⟩
    by_cases hd : d ∈ registry
    · have hrest : ∃ x ∈ rest, x ∉ registry := by
        rcases List.mem_cons.mp hd' with rfl | h'
        · exact absurd hd hd'reg
        · exact ⟨d', h', hd'reg⟩
      obtain ⟨m, hm, hmem, hmreg⟩ := ih hrest
      refine ⟨m, ?_, List.mem_cons_of_mem _ hmem, hmreg⟩
      rw [edgesFor, if_pos hd, hm]
      rfl
    · refine ⟨d, ?_, List.mem_cons_self _ _, hd⟩
      rw [edgesFor, if_neg hd]

/-- A successful whole-registry edge collection yields exactly the edges
declared by the processed components, with registered sources. -/
theorem buildEdges_ok {registry : List String} {fs : ConfigStore} :
    ∀ {l : List String} {es : List (String × String)},
      buildEdges registry fs l = .ok es →
      (∀ a b, ((a, b) ∈ es ↔
        b ∈ l ∧ a ∈ docDepsList (getComponentConfig fs b))) ∧
      ∀ e ∈ es, e.1 ∈ registry := by
  intro l
  induction l with
  | nil =>
    intro es h
    simp only [buildEdges, Except.ok.injEq] at h
    subst h
    exact ⟨by simp, by simp⟩
  | cons c rest ih =>
    intro es h
    rw [buildEdges] at h
    cases hdeps : getDependencies (getComponentConfig fs c) with
    | error e => simp only [hdeps] at h; exact absurd h (by simp)
    | ok deps =>
      simp only [hdeps] at h
      cases hes1 : edgesFor registry c deps with
      | error e => simp only [hes1] at h; exact absurd h (by simp)
      | ok es1 =>
        simp only [hes1] at h
        cases hrest : buildEdges registry fs rest with
        | error e => simp only [hrest] at h; exact absurd h (by simp)
        | ok es2 =>
          simp only [hrest, Except.ok.injEq] at h
          subst h
          have hdeps_eq : deps = docDepsList (getComponentConfig fs c) := by
            cases hdoc : getComponentConfig fs c with
            | mapping o => rw [hdoc] at hdeps; simp [getDependencies] at hdeps;
                           rw [docDepsList, hdeps]
            | null => rw [hdoc] at hdeps; simp [getDependencies] at hdeps
            | other => rw [hdoc] at hdeps; simp [getDependencies] at hdeps
          obtain ⟨hiff1, hreg1⟩ := edgesFor_ok hes1
          obtain ⟨hiff2, hreg2⟩ := ih hrest
          constructor
          · intro a b
            rw [List.mem_append, hiff1 a b, hiff2 a b, List.mem_cons]
            constructor
            · rintro (⟨rfl, hmem⟩ | ⟨hmem, hdep⟩)
              · exact ⟨Or.inl rfl, hdeps_eq ▸ hmem⟩
              · exact ⟨Or.inr hmem, hdep⟩
            · rintro ⟨rfl | hmem, hdep⟩
              · exact Or.inl ⟨rfl, hdeps_eq ▸ hdep⟩
              · exact Or.inr ⟨hmem, hdep⟩
          · intro e he
            rcases List.mem_append.mp he with h1 | h2
            · have := (hiff1 e.1 e.2).mp (by simpa using h1)
              exact hreg1 e.1 this.2
            · exact hreg2 e h2

/-- If some component of `l` has a non-mapping config, the edge collection
over `l` fails (with whatever error is hit first). -/
theorem buildEdges_error_config {registry : List String} {fs : ConfigStore}
    {c : String} :
    ∀ {l : List String}, c ∈ l → isMapping (getComponentConfig fs c) = false →
      ∃ e, buildEdges registry fs l = .error e := by
  intro l
  induction l with
  | nil => intro hc; simp at hc
  | cons c' rest ih =>
    intro hc hmap
    rw [buildEdges]
    cases hdeps : getDependencies (getComponentConfig fs c') with
    | error e => exact ⟨e, by simp only [hdeps]⟩
    | ok deps =>
      have hc'map : isMapping (getComponentConfig fs c') = true := by
        cases hdoc : getComponentConfig fs c' with
        | mapping o => rfl
        | null => rw [hdoc] at hdeps; simp [getDependencies] at hdeps
        | other => rw [hdoc] at hdeps; simp [getDependencies] at hdeps
      have hcrest : c ∈ rest := by
        rcases List.mem_cons.mp hc with rfl | h'
        · rw [hc'map] at hmap; exact absurd hmap (by simp)
        · exact h'
      cases hes1 : edgesFor registry c' deps with
      | error e => exact ⟨e, by simp only [hdeps, hes1]⟩
      | ok es1 =>
        obtain ⟨e, he⟩ := ih hcrest hmap
        exact ⟨e, by simp only [hdeps, hes1, he]⟩

/-- If every config is a mapping but some component declares an
unregistered name, the edge collection fails with `unknownDependency`
carrying a genuinely missing declared name. -/
theorem buildEdges_error_unknown {registry : List String} {fs : ConfigStore}
    (hmap : ∀ c ∈ registry, isMapping (getComponentConfig fs c) = true) :
    ∀ {l : List String}, (∀ c ∈ l, c ∈ registry) →
      (∃ b ∈ l, ∃ d ∈ docDepsList (getComponentConfig fs b), d ∉ registry) →
      ∃ m, buildEdges registry fs l = .error (.unknownDependency m) ∧
        m ∉ registry ∧
        ∃ b ∈ l, m ∈ docDepsList (getComponentConfig fs b) := by
  intro l
  induction l with
  | nil => rintro _ ⟨b, hb, _⟩; simp at hb
  | cons c rest ih =>
    rintro hsub ⟨b, hb, d, hd, hdreg⟩
    have hcreg : c ∈ registry := hsub c (List.mem_cons_self _ _)
    obtain ⟨o, ho⟩ : ∃ o, getComponentConfig fs c = .mapping o := by
      cases hdoc : getComponentConfig fs c with
      | mapping o => exact ⟨o, rfl⟩
      | null => have := hmap c hcreg; rw [hdoc] at this; simp [isMapping] at this
      | other => have := hmap c hcreg; rw [hdoc] at this; simp [isMapping] at this
    have hdeps : getDependencies (getComponentConfig fs c) =
        .ok (docDepsList (getComponentConfig fs c)) := by
      rw [ho]; rfl
    by_cases hbad : ∃ d' ∈ docDepsList (getComponentConfig fs c), d' ∉ registry
    · obtain ⟨m, hm, hmem, hmreg⟩ := edgesFor_error (c := c) hbad
      refine ⟨m, ?_, hmreg, c, List.mem_cons_self _ _, hmem⟩
      rw [buildEdges]
      simp only [hdeps, hm]
    · push_neg at hbad
      have hbrest : b ∈ rest := by
        rcases List.mem_cons.mp hb with rfl | h'
        · exact absurd hdreg (by simp [hbad d hd])
        · exact h'
      obtain ⟨es1, hes1⟩ : ∃ es1, edgesFor registry c
          (docDepsList (getComponentConfig fs c)) = .ok es1 := by
        clear hdeps ih
        generalize docDepsList (getComponentConfig fs c) = ds at hbad
        induction ds with
        | nil => exact ⟨[], rfl⟩
        | cons d' ds' ihd =>
          have hd' : d' ∈ registry := hbad d' (List.mem_cons_self _ _)
          obtain ⟨es', hes'⟩ := ihd (fun x hx => hbad x (List.mem_cons_of_mem _ hx))
          refine ⟨(d', c) :: es', ?_⟩
          rw [edgesFor, if_pos hd', hes']
          rfl
      obtain ⟨m, hm, hmreg, b', hb', hmem⟩ :=
        ih (fun x hx => hsub x (List.mem_cons_of_mem _ hx)) ⟨b, hbrest, d, hd, hdreg⟩
      refine ⟨m, ?_, hmreg, b', List.mem_cons_of_mem _ hb', hmem⟩
      rw [buildEdges]
      simp only [hdeps, hes1, hm]

/-- Edge collection over a dependency list with only registered names
always succeeds. -/
theorem edgesFor_total {registry : List String} {c : String} :
    ∀ {deps : List String}, (∀ d ∈ deps, d ∈ registry) →
      ∃ es, edgesFor registry c deps = .ok es := by
  intro deps
  induction deps with
  | nil => exact fun _ => ⟨[], rfl⟩
  | cons d rest ih =>
    intro hall
    obtain ⟨es, hes⟩ := ih (fun x hx => hall x (List.mem_cons_of_mem _ hx))
    refine ⟨(d, c) :: es, ?_⟩
    rw [edgesFor, if_pos (hall d (List.mem_cons_self _ _)), hes]
    rfl

/-- Under well-formed configs, the whole edge collection succeeds. -/
theorem buildEdges_total {registry : List String} {fs : ConfigStore}
    (hwf : wellFormedB registry fs = true) :
    ∀ {l : List String}, (∀ x ∈ l, x ∈ registry) →
      ∃ E, buildEdges registry fs l = .ok E := by
  intro l
  induction l with
  | nil => exact fun _ => ⟨[], rfl⟩
  | cons c rest ih =>
    intro hsub
    have hc := List.all_eq_true.mp hwf c (hsub c (List.mem_cons_self _ _))
    rw [Bool.and_eq_true] at hc
    obtain ⟨o, ho⟩ : ∃ o, getComponentConfig fs c = .mapping o := by
      cases hdoc : getComponentConfig fs c with
      | mapping o => exact ⟨o, rfl⟩
      | null => rw [hdoc] at hc; simp [isMapping] at hc
      | other => rw [hdoc] at hc; simp [isMapping] at hc
    have hreg : ∀ d ∈ docDepsList (getComponentConfig fs c), d ∈ registry := by
      intro d hd
      have := List.all_eq_true.mp hc.2 d hd
      exact of_decide_eq_true this
    obtain ⟨es, hes⟩ := edgesFor_total (c := c) hreg
    obtain ⟨E', hE'⟩ := ih (fun x hx => hsub x (List.mem_cons_of_mem _ hx))
    refine ⟨es ++ E', ?_⟩
    rw [buildEdges]
    simp only [ho, getDependencies]
    have ho' : docDepsList (getComponentConfig fs c) = o.getD [] := by
      rw [ho]; rfl
    rw [← ho', hes, hE']

/-- Unpacking a successful graph construction. -/
theorem getComponentGraph_ok {registry : List String} {fs : ConfigStore}
    {g : Graph} (h : getComponentGraph registry fs = .ok g) :
    g.nodes = registry ∧ buildEdges registry fs registry = .ok g.edges ∧
    ∃ out, kahn g.edges registry.length registry = some out := by
  rw [getComponentGraph] at h
  cases hE : buildEdges registry fs registry with
  | error e => simp only [hE] at h; exact absurd h (by simp)
  | ok E =>
    simp only [hE] at h
    cases hk : kahn E registry.length registry with
    | none => simp only [hk] at h; exact absurd h (by simp)
    | some out =>
      simp only [hk, Except.ok.injEq] at h
      subst h
      exact ⟨rfl, rfl, out, hk⟩

/-- Edges of a successfully built graph stay inside the registry. -/
theorem graph_edges_mem {registry : List String} {fs : ConfigStore} {g : Graph}
    (h : getComponentGraph registry fs = .ok g) :
    ∀ e ∈ g.edges, e.1 ∈ registry ∧ e.2 ∈ registry := by
  obtain ⟨-, hE, -⟩ := getComponentGraph_ok h
  obtain ⟨hiff, hreg⟩ := buildEdges_ok hE
  intro e he
  exact ⟨hreg e he, ((hiff e.1 e.2).mp (by simpa using he)).1⟩

/-- A successfully built graph is acyclic. -/
theorem graph_ok_acyclic {registry : List String} {fs : ConfigStore} {g : Graph}
    (h : getComponentGraph registry fs = .ok g) :
    ∀ v, ¬ Relation.TransGen (edgeRel g.edges) v v := by
  obtain ⟨-, -, out, hk⟩ := getComponentGraph_ok h
  exact acyclic_of_kahn_some (graph_edges_mem h) hk

/-! ### Claim theorems -/

deriving instance DecidableEq for Except

/-- C1: in a graph successfully returned by `_get_component_graph`, the
directed edge A→B is present if and only if B is a registered component
whose config lists A in its dependency list — in particular, B's listing A
never produces the reverse edge B→A. -/
theorem c1_edge_iff_declared {registry : List String} {fs : ConfigStore}
    {g : Graph} (h : getComponentGraph registry fs = .ok g) (a b : String) :
    ((a, b) ∈ g.edges ↔
      b ∈ registry ∧ a ∈ docDepsList (getComponentConfig fs b)) := by
  obtain ⟨-, hE, -⟩ := getComponentGraph_ok h
  exact (buildEdges_ok hE).1 a b

/-- Witness for C1 on the registry `{shared, api}` where `api` depends on
`shared`: the built graph has the edge shared→api and not api→shared. -/
theorem c1_edge_iff_declared_witness :
    (getComponentGraph ["shared", "api"]
      (fun c => if c = "api" then some (.mapping (some ["shared"])) else none) =
      .ok { nodes := ["shared", "api"], edges := [("shared", "api")] }) ∧
    ((("shared", "api") ∈
        (Graph.mk ["shared", "api"] [("shared", "api")]).edges) ↔
      "api" ∈ ["shared", "api"] ∧
        "shared" ∈ docDepsList (getComponentConfig
          (fun c => if c = "api" then some (.mapping (some ["shared"])) else none)
          "api")) :=
  ⟨by decide, c1_edge_iff_declared (by decide) "shared" "api"⟩

/-- C7: a successful build has exactly the registry as node list; with a
duplicate-free registry every registered component appears exactly once
and nothing else appears. -/
theorem c7_nodes_exact {registry : List String} {fs : ConfigStore} {g : Graph}
    (h : getComponentGraph registry fs = .ok g) (hnd : registry.Nodup) :
    g.nodes = registry ∧
    (∀ c ∈ registry, g.nodes.count c = 1) ∧
    (∀ c, c ∉ registry → g.nodes.count c = 0) := by
  obtain ⟨hn, -, -⟩ := getComponentGraph_ok h
  refine ⟨hn, ?_, ?_⟩
  · intro c hc
    rw [hn]
    exact List.count_eq_one_of_mem hnd hc
  · intro c hc
    rw [hn]
    exact List.count_eq_zero_of_not_mem hc

/-- Witness for C7 on a two-component registry. -/
theorem c7_nodes_exact_witness :
    (getComponentGraph ["shared", "api"]
      (fun c => if c = "api" then some (.mapping (some ["shared"])) else none) =
      .ok { nodes := ["shared", "api"], edges := [("shared", "api")] }) ∧
    (["shared", "api"] : List String).Nodup ∧
    ((Graph.mk ["shared", "api"] [("shared", "api")]).nodes = ["shared", "api"] ∧
      (∀ c ∈ ["shared", "api"],
        (Graph.mk ["shared", "api"] [("shared", "api")]).nodes.count c = 1) ∧
      (∀ c, c ∉ ["shared", "api"] →
        (Graph.mk ["shared", "api"] [("shared", "api")]).nodes.count c = 0)) :=
  ⟨by decide, by decide,
    @c7_nodes_exact ["shared", "api"]
      (fun c => if c = "api" then some (.mapping (some ["shared"])) else none)
      (Graph.mk ["shared", "api"] [("shared", "api")]) (by decide) (by decide)⟩

/-- C2: whenever the configs are well formed (every config parses to a
mapping and declares only registered names) and the declared dependency
edges contain a cycle — including a self-dependency — the build fails with
the cyclic-dependency error, so no graph is produced. -/
theorem c2_cycle_rejected {registry : List String} {fs : ConfigStore}
    (hwf : wellFormedB registry fs = true)
    (hcyc : ∃ v, Relation.TransGen (declEdge registry fs) v v) :
    getComponentGraph registry fs = .error .cyclicDependency := by
  obtain ⟨E, hE⟩ := buildEdges_total hwf (fun x hx => hx)
  obtain ⟨hiff, hreg⟩ := buildEdges_ok hE
  obtain ⟨v, hv⟩ := hcyc
  have hvE : Relation.TransGen (edgeRel E) v v :=
    Relation.TransGen.mono (fun a b hd => (hiff a b).mpr hd) hv
  cases hk : kahn E registry.length registry with
  | some out =>
    exfalso
    have hEmem : ∀ e ∈ E, e.1 ∈ registry ∧ e.2 ∈ registry := by
      intro e he
      exact ⟨hreg e he, ((hiff e.1 e.2).mp (by simpa using he)).1⟩
    exact acyclic_of_kahn_some hEmem hk v hvE
  | none =>
    rw [getComponentGraph]
    simp only [hE, hk]

/-- Witness for C2: a component that lists itself (a 1-cycle) makes the
build fail with the cyclic-dependency error. -/
theorem c2_cycle_rejected_witness :
    (wellFormedB ["a", "b"]
      (fun c => if c = "a" then some (.mapping (some ["a"])) else none) = true) ∧
    getComponentGraph ["a", "b"]
      (fun c => if c = "a" then some (.mapping (some ["a"])) else none) =
      .error .cyclicDependency :=
  ⟨by decide,
    c2_cycle_rejected (by decide)
      ⟨"a", Relation.TransGen.single ⟨by decide, by decide⟩⟩⟩

/-- C2 as universally stated is false on config sets that contain a cycle
and also declare an unregistered name: the component `a` lists itself (a
declared 1-cycle), yet the build fails with the unknown-dependency error
for "ghost", not with the cyclic-dependency error, because the registry
lookup raises before the cycle check runs. -/
theorem c2_counterexample :
    ("a" ∈ docDepsList (getComponentConfig
      (fun c => if c = "a" then some (.mapping (some ["a", "ghost"])) else none)
      "a")) ∧
    getComponentGraph ["a", "b"]
      (fun c => if c = "a" then some (.mapping (some ["a", "ghost"])) else none) =
      .error (.unknownDependency "ghost") ∧
    getComponentGraph ["a", "b"]
      (fun c => if c = "a" then some (.mapping (some ["a", "ghost"])) else none) ≠
      .error .cyclicDependency := by
  refine ⟨by decide, by decide, by decide⟩

/-- C3: whenever the graph build succeeds, the dependents computation for
any component succeeds and returns a duplicate-free arrangement of exactly
the components reachable by following edges forward from it, in which
every edge's source precedes its target. -/
theorem c3_dependents_correct {registry : List String} {fs : ConfigStore}
    {g : Graph} (h : getComponentGraph registry fs = .ok g) (c : String) :
    ∃ order, getDependentsFor registry fs c = .ok order ∧
      order.Nodup ∧
      (∀ x, x ∈ order ↔ Relation.TransGen (edgeRel g.edges) c x) ∧
      (∀ a b, (a, b) ∈ g.edges → a ∈ order → b ∈ order →
        order.indexOf a < order.indexOf b) := by
  have hacyc := graph_ok_acyclic h
  obtain ⟨out, hk⟩ :=
    kahn_total hacyc (descendantsOf g.edges c).length (descendantsOf g.edges c)
      (le_refl _)
  refine ⟨out, ?_, ?_, ?_, ?_⟩
  · rw [getDependentsFor]
    simp only [h, hk]
  · exact ((kahn_perm hk).nodup_iff).mpr (descendantsOf_nodup _ _)
  · intro x
    rw [(kahn_perm hk).mem_iff, mem_descendantsOf hacyc]
  · intro a b hab ha hb
    exact kahn_indexOf_lt hk hab
      ((kahn_perm hk).mem_iff.mp ha) ((kahn_perm hk).mem_iff.mp hb)

/-- Witness for C3 on the chain a→b→c: the dependents of `a` are `b` and
`c` in that order, and the dependents of `c` are empty. -/
theorem c3_dependents_correct_witness :
    (getComponentGraph ["a", "b", "c"]
      (fun x => if x = "b" then some (.mapping (some ["a"]))
        else if x = "c" then some (.mapping (some ["b"])) else none) =
      .ok { nodes := ["a", "b", "c"], edges := [("a", "b"), ("b", "c")] }) ∧
    (∃ order, getDependentsFor ["a", "b", "c"]
      (fun x => if x = "b" then some (.mapping (some ["a"]))
        else if x = "c" then some (.mapping (some ["b"])) else none) "a" =
        .ok order ∧
      order.Nodup ∧
      (∀ x, x ∈ order ↔ Relation.TransGen
        (edgeRel (Graph.mk ["a", "b", "c"] [("a", "b"), ("b", "c")]).edges) "a" x) ∧
      (∀ a b, (a, b) ∈ (Graph.mk ["a", "b", "c"] [("a", "b"), ("b", "c")]).edges →
        a ∈ order → b ∈ order → order.indexOf a < order.indexOf b)) :=
  ⟨by decide, c3_dependents_correct (by decide) "a"⟩

/-- C5 as stated is false in one respect: the failure on an unknown
dependency is the `KeyError` carrying only the missing name, so it cannot
name the declaring component.  Witness: whether `a` or `b` declares the
missing name "ghost", the resulting error value is the identical
`unknownDependency "ghost"`. -/
theorem c5_counterexample :
    getComponentGraph ["a", "b"]
      (fun c => if c = "a" then some (.mapping (some ["ghost"])) else none) =
      .error (.unknownDependency "ghost") ∧
    getComponentGraph ["a", "b"]
      (fun c => if c = "b" then some (.mapping (some ["ghost"])) else none) =
      .error (.unknownDependency "ghost") ∧
    "ghost" ∈ docDepsList (getComponentConfig
      (fun c => if c = "a" then some (.mapping (some ["ghost"])) else none) "a") ∧
    "ghost" ∉ docDepsList (getComponentConfig
      (fun c => if c = "a" then some (.mapping (some ["ghost"])) else none) "b") ∧
    "ghost" ∉ docDepsList (getComponentConfig
      (fun c => if c = "b" then some (.mapping (some ["ghost"])) else none) "a") ∧
    "ghost" ∈ docDepsList (getComponentConfig
      (fun c => if c = "b" then some (.mapping (some ["ghost"])) else none) "b") := by
  refine ⟨by decide, by decide, by decide, by decide, by decide, by decide⟩

/-- C5 (amended): if every config parses to a mapping and some registered
component declares a dependency name that is not registered, the build
fails with an unknown-dependency error carrying a genuinely missing
declared name (the declaring component is not part of the error), and no
graph is produced. -/
theorem c5_unknown_rejected {registry : List String} {fs : ConfigStore}
    (hmap : registry.all (fun c => isMapping (getComponentConfig fs c)) = true)
    (hbad : ∃ b ∈ registry, ∃ d ∈ docDepsList (getComponentConfig fs b),
      d ∉ registry) :
    ∃ m, getComponentGraph registry fs = .error (.unknownDependency m) ∧
      m ∉ registry ∧
      ∃ b ∈ registry, m ∈ docDepsList (getComponentConfig fs b) := by
  obtain ⟨m, hm, hmreg, b, hb, hmem⟩ :=
    buildEdges_error_unknown (List.all_eq_true.mp hmap) (fun x hx => hx) hbad
  refine ⟨m, ?_, hmreg, b, hb, hmem⟩
  rw [getComponentGraph]
  simp only [hm]

/-- Witness for the amended C5. -/
theorem c5_unknown_rejected_witness :
    ((["a", "b"] : List String).all (fun c => isMapping (getComponentConfig
      (fun x => if x = "a" then some (.mapping (some ["ghost"])) else none) c))
      = true) ∧
    (∃ m, getComponentGraph ["a", "b"]
      (fun x => if x = "a" then some (.mapping (some ["ghost"])) else none) =
        .error (.unknownDependency m) ∧
      m ∉ ["a", "b"] ∧
      ∃ b ∈ ["a", "b"], m ∈ docDepsList (getComponentConfig
        (fun x => if x = "a" then some (.mapping (some ["ghost"])) else none) b)) :=
  ⟨by decide,
    c5_unknown_rejected (by decide) ⟨"a", by decide, "ghost", by decide, by decide⟩⟩

/-- C10 as stated ("the loader returns the empty config exactly when the
file is absent") is false in the only-if direction: a present file whose
content parses to the empty mapping also makes the loader return the empty
mapping. -/
theorem c10_counterexample :
    getComponentConfig (fun _ => some (.mapping none)) "a" = .mapping none ∧
    (fun _ => some (YamlDoc.mapping none)) "a" ≠ none :=
  ⟨rfl, fun h => Option.noConfusion h⟩

/-- C10 (amended): the loader returns the empty config whenever the file
is absent (the `FileNotFoundError` fallback fires exactly on absence,
though a present file parsing to the empty mapping yields the same value),
and a present file that parses to a non-mapping document (e.g. an empty
file, which parses to null) makes graph construction fail with an error
rather than being treated as an empty dependency list. -/
theorem c10_absent_vs_nonmapping :
    (∀ (fs : ConfigStore) (c : String), fs c = none →
      getComponentConfig fs c = .mapping none) ∧
    (∀ (registry : List String) (fs : ConfigStore) (c : String),
      c ∈ registry → isMapping (getComponentConfig fs c) = false →
      ∃ e, getComponentGraph registry fs = .error e) := by
  constructor
  · intro fs c h
    rw [getComponentConfig, h]
  · intro registry fs c hc hmap
    obtain ⟨e, he⟩ := @buildEdges_error_config registry fs c registry hc hmap
    refine ⟨e, ?_⟩
    rw [getComponentGraph]
    simp only [he]

/-- Witness for the amended C10: an absent file loads as the empty config,
while a registered component whose file parses to null breaks the build. -/
theorem c10_absent_vs_nonmapping_witness :
    ((fun _ => none : ConfigStore) "a" = none ∧
      getComponentConfig (fun _ => none) "a" = .mapping none) ∧
    (("a" ∈ ["a", "b"]) ∧
      isMapping (getComponentConfig
        (fun x => if x = "a" then some .null else none) "a") = false ∧
      ∃ e, getComponentGraph ["a", "b"]
        (fun x => if x = "a" then some .null else none) = .error e) :=
  ⟨⟨rfl, c10_absent_vs_nonmapping.1 (fun _ => none) "a" rfl⟩,
    ⟨by decide, by decide,
      c10_absent_vs_nonmapping.2 ["a", "b"]
        (fun x => if x = "a" then some .null else none) "a"
        (by decide) (by decide)⟩⟩

/-! ### Reductions of the edit workflow -/

/-- The trace of the part of `edit` preceding any rebuild decision. -/
def editPre (md5hex : List Nat → String) (w : World) : List Event :=
  [.dockerInspect,
   .fingerprintComputed (getPoetryLockFileMd5Digest md5hex w.lockBefore),
   .sessionRun true,
   .fingerprintComputed (getPoetryLockFileMd5Digest md5hex w.lockAfter)]

theorem edit_unchanged (md5hex : List Nat → String) (w : World) (c : String)
    (him : w.editorImagePresent = true) (hs : w.sessionOk = true)
    (heq : getPoetryLockFileMd5Digest md5hex w.lockBefore =
      getPoetryLockFileMd5Digest md5hex w.lockAfter) :
    edit md5hex w c = (.exitedNoRebuild, editPre md5hex w) := by
  rw [edit, editPre]
  simp [him, hs, heq]

theorem edit_changed_graphError (md5hex : List Nat → String) (w : World)
    (c : String) (him : w.editorImagePresent = true) (hs : w.sessionOk = true)
    (hne : getPoetryLockFileMd5Digest md5hex w.lockBefore ≠
      getPoetryLockFileMd5Digest md5hex w.lockAfter)
    {e : CompErr} (he : getDependentsFor w.registry w.fs c = .error e) :
    edit md5hex w c = (.graphError e, editPre md5hex w ++ [.graphBuilt]) := by
  rw [edit, editPre]
  simp [him, hs, if_neg hne, he]

theorem edit_changed_buildFailed (md5hex : List Nat → String) (w : World)
    (c : String) (him : w.editorImagePresent = true) (hs : w.sessionOk = true)
    (hne : getPoetryLockFileMd5Digest md5hex w.lockBefore ≠
      getPoetryLockFileMd5Digest md5hex w.lockAfter)
    {deps : List String} (hdeps : getDependentsFor w.registry w.fs c = .ok deps)
    (hb : w.buildOk [c] = false) :
    edit md5hex w c = (.abortedBuildFailed,
      editPre md5hex w ++ [.graphBuilt, .aladdinBuild [c]]) := by
  rw [edit, editPre]
  simp [him, hs, if_neg hne, hdeps, hb]

theorem edit_changed_withDeps (md5hex : List Nat → String) (w : World)
    (c : String) (him : w.editorImagePresent = true) (hs : w.sessionOk = true)
    (hne : getPoetryLockFileMd5Digest md5hex w.lockBefore ≠
      getPoetryLockFileMd5Digest md5hex w.lockAfter)
    {deps : List String} (hdeps : getDependentsFor w.registry w.fs c = .ok deps)
    (hb : w.buildOk [c] = true) (hd : deps ≠ []) :
    edit md5hex w c =
      ((if w.buildOk deps then .completedRebuild else .abortedDependentsBuildFailed),
        editPre md5hex w ++
          [.graphBuilt, .aladdinBuild [c], .aladdinBuild deps]) := by
  rw [edit, editPre]
  by_cases hb2 : w.buildOk deps
  · simp [him, hs, if_neg hne, hdeps, hb, hb2, List.isEmpty_iff, hd]
  · simp only [Bool.not_eq_true] at hb2
    simp [him, hs, if_neg hne, hdeps, hb, hb2, List.isEmpty_iff, hd]

theorem edit_changed_noDeps (md5hex : List Nat → String) (w : World)
    (c : String) (him : w.editorImagePresent = true) (hs : w.sessionOk = true)
    (hne : getPoetryLockFileMd5Digest md5hex w.lockBefore ≠
      getPoetryLockFileMd5Digest md5hex w.lockAfter)
    (hdeps : getDependentsFor w.registry w.fs c = .ok [])
    (hb : w.buildOk [c] = true) :
    edit md5hex w c = (.completedRebuild,
      editPre md5hex w ++ [.graphBuilt, .aladdinBuild [c]]) := by
  rw [edit, editPre]
  simp [him, hs, if_neg hne, hdeps, hb]

theorem edit_sessionFailed (md5hex : List Nat → String) (w : World)
    (c : String) (him : w.editorImagePresent = true)
    (hs : w.sessionOk = false) :
    edit md5hex w c = (.abortedSessionFailed,
      [.dockerInspect,
       .fingerprintComputed (getPoetryLockFileMd5Digest md5hex w.lockBefore),
       .sessionRun false]) := by
  rw [edit]
  simp [him, hs]

theorem buildsOf_editPre (md5hex : List Nat → String) (w : World) :
    buildsOf (editPre md5hex w) = [] := rfl

theorem buildsOf_append (t1 t2 : List Event) :
    buildsOf (t1 ++ t2) = buildsOf t1 ++ buildsOf t2 :=
  List.filterMap_append _ _ _

theorem aladdinBuild_not_mem_editPre (md5hex : List Nat → String) (w : World)
    (ts : List String) : Event.aladdinBuild ts ∉ editPre md5hex w := by
  rw [editPre]
  simp

/-- C6: when the fingerprints before and after the session are equal, the
edit workflow reports no rebuild needed and exits successfully, and the
external build collaborator is never invoked. -/
theorem c6_unchanged_no_build (md5hex : List Nat → String) (w : World)
    (c : String) (him : w.editorImagePresent = true) (hs : w.sessionOk = true)
    (heq : getPoetryLockFileMd5Digest md5hex w.lockBefore =
      getPoetryLockFileMd5Digest md5hex w.lockAfter) :
    (edit md5hex w c).1 = .exitedNoRebuild ∧
    buildsOf (edit md5hex w c).2 = [] ∧
    (∀ ts, Event.aladdinBuild ts ∉ (edit md5hex w c).2) := by
  rw [edit_unchanged md5hex w c him hs heq]
  exact ⟨rfl, rfl, fun ts => aladdinBuild_not_mem_editPre md5hex w ts⟩

/-- Witness for C6: unchanged lock content leads to the no-rebuild exit
with no build invocation. -/
theorem c6_unchanged_no_build_witness :
    ((World.mk true (some [1]) true (some [1]) [] (fun _ => none)
      (fun _ => true)).editorImagePresent = true) ∧
    ((World.mk true (some [1]) true (some [1]) [] (fun _ => none)
      (fun _ => true)).sessionOk = true) ∧
    (getPoetryLockFileMd5Digest (fun _ => "h")
      (World.mk true (some [1]) true (some [1]) [] (fun _ => none)
        (fun _ => true)).lockBefore =
      getPoetryLockFileMd5Digest (fun _ => "h")
        (World.mk true (some [1]) true (some [1]) [] (fun _ => none)
          (fun _ => true)).lockAfter) ∧
    ((edit (fun _ => "h") (World.mk true (some [1]) true (some [1]) []
        (fun _ => none) (fun _ => true)) "x").1 = .exitedNoRebuild ∧
      buildsOf (edit (fun _ => "h") (World.mk true (some [1]) true (some [1]) []
        (fun _ => none) (fun _ => true)) "x").2 = [] ∧
      (∀ ts, Event.aladdinBuild ts ∉ (edit (fun _ => "h")
        (World.mk true (some [1]) true (some [1]) [] (fun _ => none)
          (fun _ => true)) "x").2)) :=
  ⟨rfl, rfl, rfl,
    c6_unchanged_no_build (fun _ => "h")
      (World.mk true (some [1]) true (some [1]) [] (fun _ => none)
        (fun _ => true)) "x" rfl rfl rfl⟩

/-- C9: when the interactive session reports failure, the edit workflow
aborts with the session failure: the fingerprint is not recomputed (it was
computed exactly once, before the session), the dependency graph is never
built, and the build collaborator is never invoked. -/
theorem c9_session_failure_aborts (md5hex : List Nat → String) (w : World)
    (c : String) (him : w.editorImagePresent = true)
    (hs : w.sessionOk = false) :
    (edit md5hex w c).1 = .abortedSessionFailed ∧
    fingerprintCount (edit md5hex w c).2 = 1 ∧
    Event.graphBuilt ∉ (edit md5hex w c).2 ∧
    (∀ ts, Event.aladdinBuild ts ∉ (edit md5hex w c).2) := by
  rw [edit_sessionFailed md5hex w c him hs]
  refine ⟨rfl, rfl, by simp, fun ts => by simp⟩

/-- Witness for C9 at a failing session. -/
theorem c9_session_failure_aborts_witness :
    ((World.mk true (some [1]) false (some [2]) [] (fun _ => none)
      (fun _ => true)).editorImagePresent = true) ∧
    ((World.mk true (some [1]) false (some [2]) [] (fun _ => none)
      (fun _ => true)).sessionOk = false) ∧
    ((edit (fun _ => "h") (World.mk true (some [1]) false (some [2]) []
        (fun _ => none) (fun _ => true)) "x").1 = .abortedSessionFailed ∧
      fingerprintCount (edit (fun _ => "h") (World.mk true (some [1]) false
        (some [2]) [] (fun _ => none) (fun _ => true)) "x").2 = 1 ∧
      Event.graphBuilt ∉ (edit (fun _ => "h") (World.mk true (some [1]) false
        (some [2]) [] (fun _ => none) (fun _ => true)) "x").2 ∧
      (∀ ts, Event.aladdinBuild ts ∉ (edit (fun _ => "h")
        (World.mk true (some [1]) false (some [2]) [] (fun _ => none)
          (fun _ => true)) "x").2)) :=
  ⟨rfl, rfl,
    c9_session_failure_aborts (fun _ => "h")
      (World.mk true (some [1]) false (some [2]) [] (fun _ => none)
        (fun _ => true)) "x" rfl rfl⟩

/-- C8: the fingerprint computation is deterministic — hashing the same
content twice yields equal digests, an absent artifact yields the
distinguished `none` both times and `none` compares equal to itself — so
an edit session that leaves the artifact absent takes the unchanged path
and triggers no build. -/
theorem c8_fingerprint_deterministic (md5hex : List Nat → String)
    (content : List Nat) (w : World) (c : String)
    (him : w.editorImagePresent = true) (hs : w.sessionOk = true)
    (hb : w.lockBefore = none) (ha : w.lockAfter = none) :
    getPoetryLockFileMd5Digest md5hex (some content) =
      getPoetryLockFileMd5Digest md5hex (some content) ∧
    getPoetryLockFileMd5Digest md5hex none = none ∧
    getPoetryLockFileMd5Digest md5hex none =
      getPoetryLockFileMd5Digest md5hex none ∧
    (edit md5hex w c).1 = .exitedNoRebuild ∧
    buildsOf (edit md5hex w c).2 = [] := by
  refine ⟨rfl, rfl, rfl, ?_, ?_⟩
  · rw [edit_unchanged md5hex w c him hs (by rw [hb, ha])]
  · rw [edit_unchanged md5hex w c him hs (by rw [hb, ha])]
    rfl

/-- Witness for C8 with both lock files absent. -/
theorem c8_fingerprint_deterministic_witness :
    ((World.mk true none true none [] (fun _ => none)
      (fun _ => true)).editorImagePresent = true) ∧
    ((World.mk true none true none [] (fun _ => none)
      (fun _ => true)).sessionOk = true) ∧
    ((World.mk true none true none [] (fun _ => none)
      (fun _ => true)).lockBefore = none) ∧
    ((World.mk true none true none [] (fun _ => none)
      (fun _ => true)).lockAfter = none) ∧
    (getPoetryLockFileMd5Digest (fun _ => "h") (some [7]) =
      getPoetryLockFileMd5Digest (fun _ => "h") (some [7]) ∧
    getPoetryLockFileMd5Digest (fun _ => "h") none = none ∧
    getPoetryLockFileMd5Digest (fun _ => "h") none =
      getPoetryLockFileMd5Digest (fun _ => "h") none ∧
    (edit (fun _ => "h") (World.mk true none true none [] (fun _ => none)
      (fun _ => true)) "x").1 = .exitedNoRebuild ∧
    buildsOf (edit (fun _ => "h") (World.mk true none true none []
      (fun _ => none) (fun _ => true)) "x").2 = []) :=
  ⟨rfl, rfl, rfl, rfl,
    c8_fingerprint_deterministic (fun _ => "h") [7]
      (World.mk true none true none [] (fun _ => none) (fun _ => true)) "x"
      rfl rfl rfl rfl⟩

/-- C4: on a changed fingerprint the orchestrator first builds the graph
and computes the dependents, so a cycle or unknown-reference failure
surfaces with no build invocation at all; otherwise every build invocation
comes after the graph build, the edited component is built first and
alone, a failure there aborts with no further invocation, and a success
with a non-empty dependent set triggers exactly one further invocation
carrying the full dependent set in the computed topological order. -/
theorem c4_changed_rebuild_protocol (md5hex : List Nat → String) (w : World)
    (c : String)
    (him : w.editorImagePresent = true) (hs : w.sessionOk = true)
    (hne : getPoetryLockFileMd5Digest md5hex w.lockBefore ≠
      getPoetryLockFileMd5Digest md5hex w.lockAfter) :
    (∀ e, getDependentsFor w.registry w.fs c = .error e →
      (edit md5hex w c).1 = .graphError e ∧
      buildsOf (edit md5hex w c).2 = []) ∧
    (∀ deps, getDependentsFor w.registry w.fs c = .ok deps →
      (∃ t1 t2, (edit md5hex w c).2 = t1 ++ Event.graphBuilt :: t2 ∧
        ∀ ts, Event.aladdinBuild ts ∉ t1) ∧
      (w.buildOk [c] = false →
        (edit md5hex w c).1 = .abortedBuildFailed ∧
        buildsOf (edit md5hex w c).2 = [[c]]) ∧
      (w.buildOk [c] = true → deps ≠ [] →
        buildsOf (edit md5hex w c).2 = [[c], deps]) ∧
      (w.buildOk [c] = true → deps = [] →
        (edit md5hex w c).1 = .completedRebuild ∧
        buildsOf (edit md5hex w c).2 = [[c]])) := by
  constructor
  · intro e he
    rw [edit_changed_graphError md5hex w c him hs hne he]
    refine ⟨rfl, ?_⟩
    show buildsOf (editPre md5hex w ++ [.graphBuilt]) = []
    rw [buildsOf_append, buildsOf_editPre]
    rfl
  · intro deps hdeps
    refine ⟨?_, ?_, ?_, ?_⟩
    · by_cases hb : w.buildOk [c] = true
      · by_cases hd : deps = []
        · subst hd
          rw [edit_changed_noDeps md5hex w c him hs hne hdeps hb]
          exact ⟨editPre md5hex w, [.aladdinBuild [c]], rfl,
            fun ts => aladdinBuild_not_mem_editPre md5hex w ts⟩
        · rw [edit_changed_withDeps md5hex w c him hs hne hdeps hb hd]
          exact ⟨editPre md5hex w, [.aladdinBuild [c], .aladdinBuild deps], rfl,
            fun ts => aladdinBuild_not_mem_editPre md5hex w ts⟩
      · have hb' : w.buildOk [c] = false := by simpa using hb
        rw [edit_changed_buildFailed md5hex w c him hs hne hdeps hb']
        exact ⟨editPre md5hex w, [.aladdinBuild [c]], rfl,
          fun ts => aladdinBuild_not_mem_editPre md5hex w ts⟩
    · intro hb
      rw [edit_changed_buildFailed md5hex w c him hs hne hdeps hb]
      refine ⟨rfl, ?_⟩
      show buildsOf (editPre md5hex w ++ [.graphBuilt, .aladdinBuild [c]]) = [[c]]
      rw [buildsOf_append, buildsOf_editPre]
      rfl
    · intro hb hd
      rw [edit_changed_withDeps md5hex w c him hs hne hdeps hb hd]
      show buildsOf (editPre md5hex w ++
        [.graphBuilt, .aladdinBuild [c], .aladdinBuild deps]) = [[c], deps]
      rw [buildsOf_append, buildsOf_editPre]
      rfl
    · intro hb hd
      subst hd
      rw [edit_changed_noDeps md5hex w c him hs hne hdeps hb]
      refine ⟨rfl, ?_⟩
      show buildsOf (editPre md5hex w ++ [.graphBuilt, .aladdinBuild [c]]) = [[c]]
      rw [buildsOf_append, buildsOf_editPre]
      rfl

/-- Witness for C4: a changed fingerprint over an empty registry (so the
dependent set is empty) leads to exactly one build invocation for the
edited component and a successful completion. -/
theorem c4_changed_rebuild_protocol_witness :
    ((World.mk true none true (some [1]) [] (fun _ => none)
      (fun _ => true)).editorImagePresent = true) ∧
    ((World.mk true none true (some [1]) [] (fun _ => none)
      (fun _ => true)).sessionOk = true) ∧
    (getPoetryLockFileMd5Digest (fun _ => "h")
      (World.mk true none true (some [1]) [] (fun _ => none)
        (fun _ => true)).lockBefore ≠
      getPoetryLockFileMd5Digest (fun _ => "h")
        (World.mk true none true (some [1]) [] (fun _ => none)
          (fun _ => true)).lockAfter) ∧
    (getDependentsFor (World.mk true none true (some [1]) [] (fun _ => none)
      (fun _ => true)).registry (World.mk true none true (some [1]) []
      (fun _ => none) (fun _ => true)).fs "x" = .ok []) ∧
    ((World.mk true none true (some [1]) [] (fun _ => none)
      (fun _ => true)).buildOk ["x"] = true) ∧
    ((edit (fun _ => "h") (World.mk true none true (some [1]) []
        (fun _ => none) (fun _ => true)) "x").1 = .completedRebuild ∧
      buildsOf (edit (fun _ => "h") (World.mk true none true (some [1]) []
        (fun _ => none) (fun _ => true)) "x").2 = [["x"]]) :=
  ⟨rfl, rfl, by decide, rfl, rfl,
    ((c4_changed_rebuild_protocol (fun _ => "h")
      (World.mk true none true (some [1]) [] (fun _ => none) (fun _ => true))
      "x" rfl rfl (by decide)).2 [] rfl).2.2.2 rfl rfl⟩

end AladdinTools
